import Mathlib

/-!
# Verification of the `gorace` cancelable-task package

Shallow embedding of `gorace.go` (package `gorace`). The package implements a
cancelable task: a user handler is run concurrently, may `Send` results on a
capacity-1 buffered channel, and the task may be `Cancel`ed, which closes the
channel exactly once.

In the Go source every public method acquires the task's single mutex `gc.mu`
at entry and releases it (via `defer`) at return, and the whole method body —
including the potentially blocking channel write in `Send` — runs inside that
critical section. Two models are developed:

* an *atomic* model (`Gorace` namespace): each method body is a state
  transformer executed atomically, which is faithful because the mutex makes
  each body a single critical section with respect to the task's state;
* a *small-step* model (`GoraceConc` namespace): threads execute the method
  bodies as sequences of micro-steps with an explicit mutex and an explicit
  channel, so that lock acquisition, the in-critical-section blocking channel
  write, and interleavings with `Cancel` are all observable.
-/

/-- Go's `interface{}` values as they appear in this package: the nil
interface (zero value of `lastResult`, and a sendable value), plus the
concrete payloads the package's callers use (bool results, int results,
errors rendered as strings). -/
inductive Iface where
  | nil
  | boolVal (b : Bool)
  | intVal (n : Int)
  | strVal (s : String)
deriving DecidableEq, Repr

/-- Capacity of the result channel: `make(chan interface{}, 1)`. -/
def chanCap : Nat := 1

namespace Gorace

/-- State of a `goCancelable` (the struct in `gorace.go`), with the channel
inlined as its buffer contents plus closed flag, and two ghost fields:
`closeCount` counts executions of `close(gc.send)`, and `acceptedSends`
records the values accepted by `Send` (those that reached the
`gc.lastResult = result` line), in order. `handlerRuns` counts how many
handler goroutines `Start` has launched. The mutex is not part of this
atomic-level state: each operation below is one whole critical section. -/
structure GoCancelable where
  canceled : Bool
  started : Bool
  lastResult : Iface
  sendBuf : List Iface
  sendClosed : Bool
  closeCount : Nat
  acceptedSends : List Iface
  handlerRuns : Nat
deriving DecidableEq, Repr

/-- Constructor `GoRace(handler)`: allocates the capacity-1 channel and returns the fresh
cancelable; all flags false, `lastResult` the nil interface. The handler
itself is kept outside the state (its calls are modelled as operations). -/
def GoRace : GoCancelable :=
  { canceled := false, started := false, lastResult := Iface.nil,
    sendBuf := [], sendClosed := false, closeCount := 0,
    acceptedSends := [], handlerRuns := 0 }

/-- The private `cancel()` body: if not yet canceled, set `canceled`, close
the channel and return true; otherwise return false. Closing increments the
ghost `closeCount`. -/
def cancel (gc : GoCancelable) : GoCancelable × Bool :=
  if !gc.canceled then
    ({ gc with canceled := true, sendClosed := true,
               closeCount := gc.closeCount + 1 }, true)
  else
    (gc, false)

/-- Method `Cancel()`: takes the lock and runs `cancel()`; at the atomic level the
lock acquisition is implicit. -/
def Cancel (gc : GoCancelable) : GoCancelable × Bool :=
  cancel gc

/-- Method `IsCanceled()`: lock-protected read of `canceled`. -/
def IsCanceled (gc : GoCancelable) : Bool :=
  gc.canceled

/-- Method `Send(result)` body: under the lock, if not canceled, store `lastResult`
and place the value on the channel (append to the buffer); if canceled, do
nothing. The ghost `acceptedSends` records the accepted value. -/
def Send (gc : GoCancelable) (result : Iface) : GoCancelable :=
  if !gc.canceled then
    { gc with lastResult := result,
              acceptedSends := gc.acceptedSends ++ [result],
              sendBuf := gc.sendBuf ++ [result] }
  else
    gc

/-- Whether the channel write inside `Send(result)` would block the calling
goroutine: only in the not-canceled branch, and only when the single buffer
slot is already occupied and undrained. -/
def sendWouldBlock (gc : GoCancelable) : Bool :=
  !gc.canceled && decide (chanCap ≤ gc.sendBuf.length)

/-- Method `Receive()`: returns the channel (its buffer contents and closed flag). -/
def Receive (gc : GoCancelable) : List Iface × Bool :=
  (gc.sendBuf, gc.sendClosed)

/-- Method `Start(ctx)` body: under the lock, if neither canceled nor started, set
`started` and launch the handler goroutine (counted by the ghost
`handlerRuns`); otherwise do nothing. In both cases the receiver itself is
returned. -/
def Start (gc : GoCancelable) : GoCancelable :=
  if !gc.canceled && !gc.started then
    { gc with started := true, handlerRuns := gc.handlerRuns + 1 }
  else
    gc

/-- Method `StartBackground(ctx)` runs `go gc.Start(ctx)` and returns the receiver
immediately; the net effect of the spawned goroutine on the task state is
exactly `Start`. -/
def StartBackground (gc : GoCancelable) : GoCancelable :=
  Start gc

/-- Method `LastResult()`: lock-protected read of `lastResult`. -/
def LastResult (gc : GoCancelable) : Iface :=
  gc.lastResult

/-- A consumer read `<-gc.Receive()` taking the buffered value (when one is
present); the channel has its own synchronization, so it needs no lock. -/
def recvStep (gc : GoCancelable) : GoCancelable :=
  { gc with sendBuf := gc.sendBuf.tail }

/-- The operations that act on a shared task. Because each operation's whole
body holds the task mutex, any concurrent execution of completed operations
is equivalent to some sequence of them. -/
inductive Op where
  | cancel
  | send (v : Iface)
  | start
  | startBackground
  | isCanceled
  | lastResult
  | recv
deriving DecidableEq, Repr

/-- Effect of one completed operation on the task state. -/
def applyOp (gc : GoCancelable) : Op → GoCancelable
  | Op.cancel => (Cancel gc).1
  | Op.send v => Send gc v
  | Op.start => Start gc
  | Op.startBackground => StartBackground gc
  | Op.isCanceled => gc
  | Op.lastResult => gc
  | Op.recv => recvStep gc

/-- Effect of a sequence of completed operations. -/
def runOps (gc : GoCancelable) : List Op → GoCancelable
  | [] => gc
  | op :: ops => runOps (applyOp gc op) ops

/-- Whether a handler invocation returned normally or panicked. -/
inductive HandlerOutcome where
  | normal
  | panics
deriving DecidableEq, Repr

/-- The goroutine body spawned by `Start`:
`go func(...) { defer gc.Cancel(); gc.handler(ctx, gc) }(ctx, gc)`.
`handlerOps` is the sequence of operations the handler performs on the task
before it exits; `outcome` records whether the handler returned normally or
panicked. The deferred `Cancel` runs on both exit paths (Go runs deferred
calls while panicking). There is no `recover` anywhere in the package, so
after the deferred `Cancel` a panic keeps unwinding; an unrecovered panic at
the top of a goroutine terminates the whole process, which the second
component reports. -/
def startGoroutine (gc : GoCancelable) (handlerOps : List Op)
    (outcome : HandlerOutcome) : GoCancelable × Bool :=
  ((Cancel (runOps gc handlerOps)).1, decide (outcome = HandlerOutcome.panics))

end Gorace

namespace GoraceConc

/-!
Small-step interleaving semantics: each goroutine executing a method of the
shared `goCancelable` is a thread whose control point (`PC`) marks where in
the method body it stands. Steps are the atomic micro-actions of the bodies:
acquiring `gc.mu`, the branch tests with their field writes, the channel
write (which blocks while the single buffer slot is full, and which the Go
runtime turns into a panic if the channel is closed), and the deferred
unlock. A scheduler is an arbitrary list of thread indices.
-/

/-- Control points of the method bodies of `gorace.go`. `L0` points stand
before `gc.mu.Lock()`; the later points hold the mutex until the deferred
unlock at `...Ret`. `sendWrite v` stands at `gc.send <- result` after
`gc.lastResult = result` has executed. `recvL0` is a consumer goroutine at
`<-gc.Receive()`, which takes no lock. -/
inductive PC where
  | sendL0 (v : Iface)
  | sendL1 (v : Iface)
  | sendWrite (v : Iface)
  | sendRet
  | cancelL0
  | cancelL1
  | cancelRet
  | startL0
  | startL1
  | startRet
  | isCanceledL0
  | isCanceledL1
  | lastResultL0
  | lastResultL1
  | recvL0
  | done
deriving DecidableEq, Repr

/-- Control points at which the thread holds the task mutex. -/
def holdsLock : PC → Bool
  | PC.sendL1 _ => true
  | PC.sendWrite _ => true
  | PC.sendRet => true
  | PC.cancelL1 => true
  | PC.cancelRet => true
  | PC.startL1 => true
  | PC.startRet => true
  | PC.isCanceledL1 => true
  | PC.lastResultL1 => true
  | _ => false

/-- Entry control points: where a goroutine stands when its method call
begins. -/
def entryPC : PC → Bool
  | PC.sendL0 _ => true
  | PC.cancelL0 => true
  | PC.startL0 => true
  | PC.isCanceledL0 => true
  | PC.lastResultL0 => true
  | PC.recvL0 => true
  | _ => false

/-- Entry control points whose first micro-step is `gc.mu.Lock()`. -/
def entryLockPC : PC → Bool
  | PC.sendL0 _ => true
  | PC.cancelL0 => true
  | PC.startL0 => true
  | PC.isCanceledL0 => true
  | PC.lastResultL0 => true
  | _ => false

/-- The shared system: the `goCancelable` fields, the channel (buffer,
closed flag, and a ghost count of `close` executions), the mutex owner, the
ghost trace of accepted sends and of launched handler goroutines, a flag
recording whether the Go runtime has panicked the process (write to or close
of a closed channel), and the thread pool. -/
structure Sys where
  canceled : Bool
  started : Bool
  lastResult : Iface
  buf : List Iface
  closed : Bool
  closeCount : Nat
  acceptedSends : List Iface
  handlerRuns : Nat
  lock : Option Nat
  crashed : Bool
  threads : List PC
deriving DecidableEq, Repr

/-- Initial system: a fresh `goCancelable` (as built by `GoRace`) shared by
an arbitrary pool of goroutines, each about to call one method. -/
def init (ts : List PC) : Sys :=
  { canceled := false, started := false, lastResult := Iface.nil,
    buf := [], closed := false, closeCount := 0, acceptedSends := [],
    handlerRuns := 0, lock := none, crashed := false, threads := ts }

/-- One micro-step of the thread `tid` standing at control point `pc`.
`none` means the thread cannot step now: it is blocked on the mutex, blocked
on the full channel slot, blocked on an empty open channel, or already
finished. -/
def execPC (s : Sys) (tid : Nat) : PC → Option Sys
    | PC.sendL0 v =>
      match s.lock with
      | none => some { s with lock := some tid,
                              threads := s.threads.set tid (PC.sendL1 v) }
      | some _ => none
    | PC.sendL1 v =>
      if s.canceled then
        some { s with threads := s.threads.set tid PC.sendRet }
      else
        some { s with lastResult := v,
                      acceptedSends := s.acceptedSends ++ [v],
                      threads := s.threads.set tid (PC.sendWrite v) }
    | PC.sendWrite v =>
      if s.closed then
        some { s with crashed := true, threads := s.threads.set tid PC.done }
      else if s.buf.length < chanCap then
        some { s with buf := s.buf ++ [v],
                      threads := s.threads.set tid PC.sendRet }
      else
        none
    | PC.sendRet =>
      some { s with lock := none, threads := s.threads.set tid PC.done }
    | PC.cancelL0 =>
      match s.lock with
      | none => some { s with lock := some tid,
                              threads := s.threads.set tid PC.cancelL1 }
      | some _ => none
    | PC.cancelL1 =>
      if s.canceled then
        some { s with threads := s.threads.set tid PC.cancelRet }
      else if s.closed then
        some { s with canceled := true, crashed := true,
                      threads := s.threads.set tid PC.cancelRet }
      else
        some { s with canceled := true, closed := true,
                      closeCount := s.closeCount + 1,
                      threads := s.threads.set tid PC.cancelRet }
    | PC.cancelRet =>
      some { s with lock := none, threads := s.threads.set tid PC.done }
    | PC.startL0 =>
      match s.lock with
      | none => some { s with lock := some tid,
                              threads := s.threads.set tid PC.startL1 }
      | some _ => none
    | PC.startL1 =>
      if !s.canceled && !s.started then
        some { s with started := true, handlerRuns := s.handlerRuns + 1,
                      threads := s.threads.set tid PC.startRet }
      else
        some { s with threads := s.threads.set tid PC.startRet }
    | PC.startRet =>
      some { s with lock := none, threads := s.threads.set tid PC.done }
    | PC.isCanceledL0 =>
      match s.lock with
      | none => some { s with lock := some tid,
                              threads := s.threads.set tid PC.isCanceledL1 }
      | some _ => none
    | PC.isCanceledL1 =>
      some { s with lock := none, threads := s.threads.set tid PC.done }
    | PC.lastResultL0 =>
      match s.lock with
      | none => some { s with lock := some tid,
                              threads := s.threads.set tid PC.lastResultL1 }
      | some _ => none
    | PC.lastResultL1 =>
      some { s with lock := none, threads := s.threads.set tid PC.done }
    | PC.recvL0 =>
      match s.buf with
      | _ :: rest =>
        some { s with buf := rest, threads := s.threads.set tid PC.done }
      | [] =>
        if s.closed then some { s with threads := s.threads.set tid PC.done }
        else none
    | PC.done => none

/-- One micro-step of thread `tid`: look up its control point and step it. -/
def exec (s : Sys) (tid : Nat) : Option Sys :=
  match s.threads[tid]? with
  | none => none
  | some pc => execPC s tid pc

/-- Run a schedule (list of thread indices); `none` as soon as a scheduled
thread cannot step. -/
def run (s : Sys) : List Nat → Option Sys
  | [] => some s
  | tid :: tids =>
    match exec s tid with
    | none => none
    | some s' => run s' tids

theorem getSet_self {l : List PC} {i : Nat} {a b : PC} (h : l[i]? = some b) :
    (l.set i a)[i]? = some a := by
  have hi : i < l.length := (List.getElem?_eq_some.mp h).1
  exact List.getElem?_set_eq_of_lt a hi

theorem getSet_other {l : List PC} {i j : Nat} {a : PC} (h : j ≠ i) :
    (l.set i a)[j]? = l[j]? :=
  List.getElem?_set_ne (fun hh => h hh.symm)

theorem mem_of_getLast?_eq {l : List Iface} {v : Iface} (h : l.getLast? = some v) :
    v ∈ l := by
  obtain ⟨hne, hv⟩ := List.mem_getLast?_eq_getLast (Option.mem_def.mpr h)
  rw [hv]
  exact List.getLast_mem hne

/-- The global invariant of the system: the channel is closed exactly when
the task is canceled and has been closed at most once; the runtime has never
panicked; `Start` has launched at most one handler; the buffer respects the
channel capacity and holds only accepted values; `lastResult` is the most
recently accepted value; a thread whose control point holds the mutex is the
mutex owner; and a thread standing at the channel write has passed the
not-canceled check and has just recorded its value in `lastResult`. -/
structure Inv (s : Sys) : Prop where
  closedEq : s.closed = s.canceled
  closeOnce : s.closeCount = (if s.canceled then 1 else 0)
  noCrash : s.crashed = false
  runsOnce : s.handlerRuns = (if s.started then 1 else 0)
  bufCap : s.buf.length ≤ chanCap
  bufAccepted : ∀ w ∈ s.buf, w ∈ s.acceptedSends
  lastAccepted : s.lastResult = s.acceptedSends.getLastD Iface.nil
  lockOwn : ∀ (tid : Nat) (pc : PC), s.threads[tid]? = some pc →
    holdsLock pc = true → s.lock = some tid
  writeOk : ∀ (tid : Nat) (v : Iface), s.threads[tid]? = some (PC.sendWrite v) →
    s.canceled = false ∧ s.acceptedSends.getLast? = some v

theorem entry_not_holds {pc : PC} (h : entryPC pc = true) : holdsLock pc = false := by
  cases pc <;> simp_all [entryPC, holdsLock]

theorem entry_not_sendWrite {pc : PC} (h : entryPC pc = true) :
    ∀ v, pc ≠ PC.sendWrite v := by
  cases pc <;> simp_all [entryPC]

/-- The initial system satisfies the invariant. -/
theorem inv_init (ts : List PC) (hts : ∀ pc ∈ ts, entryPC pc = true) :
    Inv (init ts) := by
  refine ⟨rfl, rfl, rfl, rfl, by simp [init, chanCap], by simp [init],
    rfl, ?_, ?_⟩
  · intro tid pc hget hhold
    have hmem : pc ∈ ts := by
      obtain ⟨hl, he⟩ := List.getElem?_eq_some.mp hget
      exact he ▸ List.getElem_mem hl
    rw [entry_not_holds (hts pc hmem)] at hhold
    cases hhold
  · intro tid v hget
    have hmem : PC.sendWrite v ∈ ts := by
      obtain ⟨hl, he⟩ := List.getElem?_eq_some.mp hget
      exact he ▸ List.getElem_mem hl
    exact absurd rfl (entry_not_sendWrite (hts _ hmem) v)

/-- Invariant preservation for a lock-acquisition micro-step. -/
theorem inv_acquire {s : Sys} {tid : Nat} {pc0 pc1 : PC} (hInv : Inv s)
    (hpc : s.threads[tid]? = some pc0) (hlock : s.lock = none)
    (hnw : ∀ v, pc1 ≠ PC.sendWrite v) :
    Inv { s with lock := some tid, threads := s.threads.set tid pc1 } := by
  obtain ⟨i1, i2, i3, i4, i5, i6, i7, i8, i9⟩ := hInv
  refine ⟨i1, i2, i3, i4, i5, i6, i7, ?_, ?_⟩
  · intro tid' pc' hget' hhold'
    have hg : (s.threads.set tid pc1)[tid']? = some pc' := hget'
    by_cases htid : tid' = tid
    · show some tid = some tid'
      rw [htid]
    · rw [getSet_other htid] at hg
      have := i8 tid' pc' hg hhold'
      rw [hlock] at this
      cases this
  · intro tid' v hget'
    have hg : (s.threads.set tid pc1)[tid']? = some (PC.sendWrite v) := hget'
    by_cases htid : tid' = tid
    · subst htid
      rw [getSet_self hpc] at hg
      exact absurd (Option.some.inj hg) (hnw v)
    · rw [getSet_other htid] at hg
      exact i9 tid' v hg

/-- Invariant preservation for the unlock micro-step at the end of a method
body. -/
theorem inv_release {s : Sys} {tid : Nat} {pc0 pc1 : PC} (hInv : Inv s)
    (hpc : s.threads[tid]? = some pc0) (h0 : holdsLock pc0 = true)
    (h1 : holdsLock pc1 = false) (hnw : ∀ v, pc1 ≠ PC.sendWrite v) :
    Inv { s with lock := none, threads := s.threads.set tid pc1 } := by
  obtain ⟨i1, i2, i3, i4, i5, i6, i7, i8, i9⟩ := hInv
  have hlock : s.lock = some tid := i8 tid pc0 hpc h0
  refine ⟨i1, i2, i3, i4, i5, i6, i7, ?_, ?_⟩
  · intro tid' pc' hget' hhold'
    have hg : (s.threads.set tid pc1)[tid']? = some pc' := hget'
    by_cases htid : tid' = tid
    · subst htid
      rw [getSet_self hpc] at hg
      rw [← Option.some.inj hg, h1] at hhold'
      cases hhold'
    · rw [getSet_other htid] at hg
      have := i8 tid' pc' hg hhold'
      rw [hlock] at this
      exact absurd (Option.some.inj this).symm htid
  · intro tid' v hget'
    have hg : (s.threads.set tid pc1)[tid']? = some (PC.sendWrite v) := hget'
    by_cases htid : tid' = tid
    · subst htid
      rw [getSet_self hpc] at hg
      exact absurd (Option.some.inj hg) (hnw v)
    · rw [getSet_other htid] at hg
      exact i9 tid' v hg

/-- Invariant preservation for a micro-step that only moves a thread's
control point, leaving every field and the mutex unchanged. -/
theorem inv_setpc {s : Sys} {tid : Nat} {pc0 pc1 : PC} (hInv : Inv s)
    (hpc : s.threads[tid]? = some pc0)
    (hl : holdsLock pc1 = true → s.lock = some tid)
    (hnw : ∀ v, pc1 ≠ PC.sendWrite v) :
    Inv { s with threads := s.threads.set tid pc1 } := by
  obtain ⟨i1, i2, i3, i4, i5, i6, i7, i8, i9⟩ := hInv
  refine ⟨i1, i2, i3, i4, i5, i6, i7, ?_, ?_⟩
  · intro tid' pc' hget' hhold'
    have hg : (s.threads.set tid pc1)[tid']? = some pc' := hget'
    by_cases htid : tid' = tid
    · subst htid
      rw [getSet_self hpc] at hg
      exact hl (Option.some.inj hg ▸ hhold')
    · rw [getSet_other htid] at hg
      exact i8 tid' pc' hg hhold'
  · intro tid' v hget'
    have hg : (s.threads.set tid pc1)[tid']? = some (PC.sendWrite v) := hget'
    by_cases htid : tid' = tid
    · subst htid
      rw [getSet_self hpc] at hg
      exact absurd (Option.some.inj hg) (hnw v)
    · rw [getSet_other htid] at hg
      exact i9 tid' v hg

/-- The invariant is preserved by every enabled micro-step. -/
theorem inv_exec {s s' : Sys} {tid : Nat} (hInv : Inv s)
    (h : exec s tid = some s') : Inv s' := by
  unfold exec at h
  split at h
  · cases h
  next pc hpc =>
    cases pc with
    | sendL0 v =>
      simp only [execPC] at h
      split at h
      · rename_i hlock
        have hx := Option.some.inj h
        subst hx
        exact inv_acquire hInv hpc hlock fun v' hh => PC.noConfusion hh
      · cases h
    | sendL1 v =>
      simp only [execPC] at h
      split at h
      · rename_i hc
        have hx := Option.some.inj h
        subst hx
        exact inv_setpc hInv hpc (fun _ => hInv.lockOwn tid (PC.sendL1 v) hpc rfl)
          fun v' hh => PC.noConfusion hh
      · rename_i hc
        have hx := Option.some.inj h
        subst hx
        have hcf : s.canceled = false := by simpa using hc
        obtain ⟨i1, i2, i3, i4, i5, i6, i7, i8, i9⟩ := hInv
        have hlock : s.lock = some tid := i8 tid (PC.sendL1 v) hpc rfl
        refine ⟨i1, i2, i3, i4, i5, ?_, ?_, ?_, ?_⟩
        · intro w hw
          exact List.mem_append.mpr (Or.inl (i6 w hw))
        · exact (List.getLastD_concat _ _ _).symm
        · intro tid' pc' hget' hhold'
          have hg : (s.threads.set tid (PC.sendWrite v))[tid']? = some pc' := hget'
          by_cases htid : tid' = tid
          · subst htid
            exact hlock
          · rw [getSet_other htid] at hg
            exact i8 tid' pc' hg hhold'
        · intro tid' v' hget'
          have hg : (s.threads.set tid (PC.sendWrite v))[tid']?
              = some (PC.sendWrite v') := hget'
          by_cases htid : tid' = tid
          · subst htid
            rw [getSet_self hpc] at hg
            cases Option.some.inj hg
            exact ⟨hcf, List.getLast?_concat _⟩
          · rw [getSet_other htid] at hg
            have hl' := i8 tid' (PC.sendWrite v') hg rfl
            rw [hlock] at hl'
            exact absurd (Option.some.inj hl').symm htid
    | sendWrite v =>
      simp only [execPC] at h
      split at h
      · rename_i hclosed
        obtain ⟨hc, -⟩ := hInv.writeOk tid v hpc
        rw [hInv.closedEq, hc] at hclosed
        cases hclosed
      · rename_i hclosed
        split at h
        · rename_i hroom
          have hx := Option.some.inj h
          subst hx
          obtain ⟨i1, i2, i3, i4, i5, i6, i7, i8, i9⟩ := hInv
          obtain ⟨hcf, hlast⟩ := i9 tid v hpc
          have hlock : s.lock = some tid := i8 tid (PC.sendWrite v) hpc rfl
          refine ⟨i1, i2, i3, i4, ?_, ?_, i7, ?_, ?_⟩
          · have hr : s.buf.length + 1 ≤ chanCap := hroom
            simpa using hr
          · intro w hw
            rcases List.mem_append.mp hw with hw | hw
            · exact i6 w hw
            · rw [List.mem_singleton.mp hw]
              exact mem_of_getLast?_eq hlast
          · intro tid' pc' hget' hhold'
            have hg : (s.threads.set tid PC.sendRet)[tid']? = some pc' := hget'
            by_cases htid : tid' = tid
            · subst htid
              exact hlock
            · rw [getSet_other htid] at hg
              exact i8 tid' pc' hg hhold'
          · intro tid' v' hget'
            have hg : (s.threads.set tid PC.sendRet)[tid']?
                = some (PC.sendWrite v') := hget'
            by_cases htid : tid' = tid
            · subst htid
              rw [getSet_self hpc] at hg
              exact absurd (Option.some.inj hg) fun hh => PC.noConfusion hh
            · rw [getSet_other htid] at hg
              exact i9 tid' v' hg
        · cases h
    | sendRet =>
      simp only [execPC] at h
      have hx := Option.some.inj h
      subst hx
      exact inv_release hInv hpc rfl rfl fun v' hh => PC.noConfusion hh
    | cancelL0 =>
      simp only [execPC] at h
      split at h
      · rename_i hlock
        have hx := Option.some.inj h
        subst hx
        exact inv_acquire hInv hpc hlock fun v' hh => PC.noConfusion hh
      · cases h
    | cancelL1 =>
      simp only [execPC] at h
      split at h
      · rename_i hc
        have hx := Option.some.inj h
        subst hx
        exact inv_setpc hInv hpc (fun _ => hInv.lockOwn tid PC.cancelL1 hpc rfl)
          fun v' hh => PC.noConfusion hh
      · rename_i hc
        split at h
        · rename_i hcl
          have hcf : s.canceled = false := by simpa using hc
          rw [hInv.closedEq, hcf] at hcl
          cases hcl
        · rename_i hcl
          have hx := Option.some.inj h
          subst hx
          have hcf : s.canceled = false := by simpa using hc
          obtain ⟨i1, i2, i3, i4, i5, i6, i7, i8, i9⟩ := hInv
          have hlock : s.lock = some tid := i8 tid PC.cancelL1 hpc rfl
          refine ⟨rfl, ?_, i3, i4, i5, i6, i7, ?_, ?_⟩
          · simp [i2, hcf]
          · intro tid' pc' hget' hhold'
            have hg : (s.threads.set tid PC.cancelRet)[tid']? = some pc' := hget'
            by_cases htid : tid' = tid
            · subst htid
              exact hlock
            · rw [getSet_other htid] at hg
              exact i8 tid' pc' hg hhold'
          · intro tid' v' hget'
            have hg : (s.threads.set tid PC.cancelRet)[tid']?
                = some (PC.sendWrite v') := hget'
            by_cases htid : tid' = tid
            · subst htid
              rw [getSet_self hpc] at hg
              exact absurd (Option.some.inj hg) fun hh => PC.noConfusion hh
            · rw [getSet_other htid] at hg
              have hl' := i8 tid' (PC.sendWrite v') hg rfl
              rw [hlock] at hl'
              exact absurd (Option.some.inj hl').symm htid
    | cancelRet =>
      simp only [execPC] at h
      have hx := Option.some.inj h
      subst hx
      exact inv_release hInv hpc rfl rfl fun v' hh => PC.noConfusion hh
    | startL0 =>
      simp only [execPC] at h
      split at h
      · rename_i hlock
        have hx := Option.some.inj h
        subst hx
        exact inv_acquire hInv hpc hlock fun v' hh => PC.noConfusion hh
      · cases h
    | startL1 =>
      simp only [execPC] at h
      split at h
      · rename_i hcond
        have hx := Option.some.inj h
        subst hx
        have hsf : s.started = false := by
          have h2 := hcond
          simp only [Bool.and_eq_true, Bool.not_eq_true'] at h2
          exact h2.2
        obtain ⟨i1, i2, i3, i4, i5, i6, i7, i8, i9⟩ := hInv
        have hlock : s.lock = some tid := i8 tid PC.startL1 hpc rfl
        refine ⟨i1, i2, i3, ?_, i5, i6, i7, ?_, ?_⟩
        · simp [i4, hsf]
        · intro tid' pc' hget' hhold'
          have hg : (s.threads.set tid PC.startRet)[tid']? = some pc' := hget'
          by_cases htid : tid' = tid
          · subst htid
            exact hlock
          · rw [getSet_other htid] at hg
            exact i8 tid' pc' hg hhold'
        · intro tid' v' hget'
          have hg : (s.threads.set tid PC.startRet)[tid']?
              = some (PC.sendWrite v') := hget'
          by_cases htid : tid' = tid
          · subst htid
            rw [getSet_self hpc] at hg
            exact absurd (Option.some.inj hg) fun hh => PC.noConfusion hh
          · rw [getSet_other htid] at hg
            exact i9 tid' v' hg
      · have hx := Option.some.inj h
        subst hx
        exact inv_setpc hInv hpc (fun _ => hInv.lockOwn tid PC.startL1 hpc rfl)
          fun v' hh => PC.noConfusion hh
    | startRet =>
      simp only [execPC] at h
      have hx := Option.some.inj h
      subst hx
      exact inv_release hInv hpc rfl rfl fun v' hh => PC.noConfusion hh
    | isCanceledL0 =>
      simp only [execPC] at h
      split at h
      · rename_i hlock
        have hx := Option.some.inj h
        subst hx
        exact inv_acquire hInv hpc hlock fun v' hh => PC.noConfusion hh
      · cases h
    | isCanceledL1 =>
      simp only [execPC] at h
      have hx := Option.some.inj h
      subst hx
      exact inv_release hInv hpc rfl rfl fun v' hh => PC.noConfusion hh
    | lastResultL0 =>
      simp only [execPC] at h
      split at h
      · rename_i hlock
        have hx := Option.some.inj h
        subst hx
        exact inv_acquire hInv hpc hlock fun v' hh => PC.noConfusion hh
      · cases h
    | lastResultL1 =>
      simp only [execPC] at h
      have hx := Option.some.inj h
      subst hx
      exact inv_release hInv hpc rfl rfl fun v' hh => PC.noConfusion hh
    | recvL0 =>
      simp only [execPC] at h
      split at h
      · rename_i w rest hbuf
        have hx := Option.some.inj h
        subst hx
        obtain ⟨i1, i2, i3, i4, i5, i6, i7, i8, i9⟩ := hInv
        refine ⟨i1, i2, i3, i4, ?_, ?_, i7, ?_, ?_⟩
        · rw [hbuf] at i5
          simp only [List.length_cons] at i5
          exact Nat.le_of_succ_le i5
        · intro x hx
          exact i6 x (by rw [hbuf]; exact List.mem_cons_of_mem w hx)
        · intro tid' pc' hget' hhold'
          have hg : (s.threads.set tid PC.done)[tid']? = some pc' := hget'
          by_cases htid : tid' = tid
          · subst htid
            rw [getSet_self hpc] at hg
            rw [← Option.some.inj hg] at hhold'
            simp [holdsLock] at hhold'
          · rw [getSet_other htid] at hg
            exact i8 tid' pc' hg hhold'
        · intro tid' v' hget'
          have hg : (s.threads.set tid PC.done)[tid']?
              = some (PC.sendWrite v') := hget'
          by_cases htid : tid' = tid
          · subst htid
            rw [getSet_self hpc] at hg
            exact absurd (Option.some.inj hg) fun hh => PC.noConfusion hh
          · rw [getSet_other htid] at hg
            exact i9 tid' v' hg
      · rename_i hbuf
        split at h
        · rename_i hcl
          have hx := Option.some.inj h
          subst hx
          exact inv_setpc hInv hpc
            (fun hh => absurd hh (by simp [holdsLock]))
            fun v' hh => PC.noConfusion hh
        · cases h
    | done =>
      simp only [execPC] at h
      cases h

/-- The invariant is preserved by any schedule. -/
theorem inv_run {s s' : Sys} {tr : List Nat} (hInv : Inv s)
    (h : run s tr = some s') : Inv s' := by
  induction tr generalizing s with
  | nil =>
    simp only [run] at h
    exact (Option.some.inj h) ▸ hInv
  | cons tid tids ih =>
    simp only [run] at h
    cases hstep : exec s tid with
    | none => rw [hstep] at h; cases h
    | some s1 =>
      rw [hstep] at h
      exact ih (inv_exec hInv hstep) h

/-- The invariant holds in every state a schedule can reach from an initial
system. -/
theorem inv_reachable {ts : List PC} {tr : List Nat} {s : Sys}
    (hts : ∀ pc ∈ ts, entryPC pc = true) (h : run (init ts) tr = some s) :
    Inv s :=
  inv_run (inv_init ts hts) h

end GoraceConc

namespace Gorace

theorem cancel_canceled (gc : GoCancelable) : (cancel gc).1.canceled = true := by
  unfold cancel
  cases hc : gc.canceled <;> simp [hc]

theorem cancel_lastResult (gc : GoCancelable) :
    (cancel gc).1.lastResult = gc.lastResult := by
  unfold cancel
  cases hc : gc.canceled <;> simp [hc]

theorem cancel_closed_of {gc : GoCancelable} (h : gc.sendClosed = gc.canceled) :
    (cancel gc).1.sendClosed = true := by
  unfold cancel
  cases hc : gc.canceled <;> simp [hc] <;> rw [h, hc]

/-- State invariant of the atomic model: the channel's closed flag tracks
`canceled`, the channel has been closed at most once (exactly when canceled),
at most one handler goroutine has ever been launched (exactly when started),
and `lastResult` is the most recently accepted value. -/
structure OpInv (gc : GoCancelable) : Prop where
  closedEq : gc.sendClosed = gc.canceled
  closeOnce : gc.closeCount = (if gc.canceled then 1 else 0)
  runsOnce : gc.handlerRuns = (if gc.started then 1 else 0)
  lastAccepted : gc.lastResult = gc.acceptedSends.getLastD Iface.nil

theorem opInv_GoRace : OpInv GoRace := ⟨rfl, rfl, rfl, rfl⟩

theorem opInv_applyOp {gc : GoCancelable} (h : OpInv gc) (op : Op) :
    OpInv (applyOp gc op) := by
  obtain ⟨h1, h2, h3, h4⟩ := h
  cases op with
  | cancel =>
    show OpInv (cancel gc).1
    unfold cancel
    cases hc : gc.canceled with
    | false =>
      simp only [hc, Bool.not_false, if_pos]
      exact ⟨rfl, by simp [h2, hc], h3, h4⟩
    | true =>
      simp only [hc, Bool.not_true, Bool.false_eq_true, if_false]
      exact ⟨h1, h2, h3, h4⟩
  | send v =>
    show OpInv (Send gc v)
    unfold Send
    cases hc : gc.canceled with
    | false =>
      simp only [hc, Bool.not_false, if_pos]
      exact ⟨by rw [h1, hc], by rw [h2, hc], h3,
        (List.getLastD_concat _ _ _).symm⟩
    | true =>
      simp only [hc, Bool.not_true, Bool.false_eq_true, if_false]
      exact ⟨h1, h2, h3, h4⟩
  | start =>
    show OpInv (Start gc)
    unfold Start
    cases hcond : (!gc.canceled && !gc.started) with
    | false =>
      simp only [hcond, Bool.false_eq_true, if_false]
      exact ⟨h1, h2, h3, h4⟩
    | true =>
      have hsf : gc.started = false := by
        have h2' := hcond
        simp only [Bool.and_eq_true, Bool.not_eq_true'] at h2'
        exact h2'.2
      simp only [hcond, if_pos]
      exact ⟨h1, h2, by simp [h3, hsf], h4⟩
  | startBackground =>
    show OpInv (Start gc)
    unfold Start
    cases hcond : (!gc.canceled && !gc.started) with
    | false =>
      simp only [hcond, Bool.false_eq_true, if_false]
      exact ⟨h1, h2, h3, h4⟩
    | true =>
      have hsf : gc.started = false := by
        have h2' := hcond
        simp only [Bool.and_eq_true, Bool.not_eq_true'] at h2'
        exact h2'.2
      simp only [hcond, if_pos]
      exact ⟨h1, h2, by simp [h3, hsf], h4⟩
  | isCanceled => exact ⟨h1, h2, h3, h4⟩
  | lastResult => exact ⟨h1, h2, h3, h4⟩
  | recv => exact ⟨h1, h2, h3, h4⟩

theorem opInv_runOps {gc : GoCancelable} (h : OpInv gc) (ops : List Op) :
    OpInv (runOps gc ops) := by
  induction ops generalizing gc with
  | nil => exact h
  | cons op ops ih => exact ih (opInv_applyOp h op)

theorem applyOp_closedEq {gc : GoCancelable} (h : gc.sendClosed = gc.canceled)
    (op : Op) : (applyOp gc op).sendClosed = (applyOp gc op).canceled := by
  cases op with
  | cancel =>
    show (cancel gc).1.sendClosed = (cancel gc).1.canceled
    unfold cancel
    cases hc : gc.canceled <;> simp [hc] <;> rw [h, hc]
  | send v =>
    show (Send gc v).sendClosed = (Send gc v).canceled
    unfold Send
    cases hc : gc.canceled <;> simp [hc] <;> rw [h, hc]
  | start =>
    show (Start gc).sendClosed = (Start gc).canceled
    unfold Start
    cases hcond : (!gc.canceled && !gc.started) <;> simp [hcond] <;> exact h
  | startBackground =>
    show (Start gc).sendClosed = (Start gc).canceled
    unfold Start
    cases hcond : (!gc.canceled && !gc.started) <;> simp [hcond] <;> exact h
  | isCanceled => exact h
  | lastResult => exact h
  | recv => exact h

theorem runOps_closedEq {gc : GoCancelable} (h : gc.sendClosed = gc.canceled)
    (ops : List Op) :
    (runOps gc ops).sendClosed = (runOps gc ops).canceled := by
  induction ops generalizing gc with
  | nil => exact h
  | cons op ops ih => exact ih (applyOp_closedEq h op)

end Gorace

/-!
## Claim theorems
-/

/-- C1, counterexample: the claim says a fatal fault (panic) in the handler
is caught at the task/handler boundary and does not crash the process. The
spawned goroutine `defer gc.Cancel(); gc.handler(ctx, gc)` contains no
`recover`, so with a panicking handler the panic resumes after the deferred
`Cancel` and, unrecovered at the top of a goroutine, terminates the whole
process: `startGoroutine` reports a process crash on a fresh task whose
handler panics. -/
theorem C1_counterexample :
    (Gorace.startGoroutine (Gorace.Start Gorace.GoRace) []
      Gorace.HandlerOutcome.panics).2 = true := by
  decide

/-- C1 (amended): a handler fault never reaches the caller of `Start`
(the handler runs on its own goroutine, whose net effect on the task is
`startGoroutine`), and on every exit path - normal return or panic - the
deferred `Cancel` still runs, so the task always ends cancelled with the
result channel closed and no consumer blocks forever; however the fault is
not caught at the boundary: the process crashes exactly when the handler
panics. -/
theorem C1_handler_fault_cancels (gc : Gorace.GoCancelable)
    (ops : List Gorace.Op) (outcome : Gorace.HandlerOutcome)
    (hcc : gc.sendClosed = gc.canceled) :
    (Gorace.startGoroutine gc ops outcome).1.canceled = true ∧
    (Gorace.startGoroutine gc ops outcome).1.sendClosed = true ∧
    ((Gorace.startGoroutine gc ops outcome).2 = true ↔
      outcome = Gorace.HandlerOutcome.panics) := by
  refine ⟨Gorace.cancel_canceled _, ?_, by simp [Gorace.startGoroutine]⟩
  exact Gorace.cancel_closed_of (Gorace.runOps_closedEq hcc ops)

/-- C1 witness: instantiation of the amended theorem on a fresh started task
whose handler sends once and then panics. -/
theorem C1_handler_fault_cancels_witness :
    (Gorace.startGoroutine (Gorace.Start Gorace.GoRace)
      [Gorace.Op.send (Iface.boolVal true)] Gorace.HandlerOutcome.panics).1.canceled
      = true :=
  (C1_handler_fault_cancels (Gorace.Start Gorace.GoRace)
    [Gorace.Op.send (Iface.boolVal true)] Gorace.HandlerOutcome.panics rfl).1

/-- C2: in every interleaved execution the runtime never performs a channel
write after the channel is closed (`crashed` stays false), and any `Send`
that has passed its cancelled-check and stands at the channel write observes
`canceled = false` and an open channel: a `Send` either completes its
check-plus-write under the mutex before `Cancel` can close, or sees
`canceled = true` and writes nothing. -/
theorem C2_no_send_after_cancel (ts : List GoraceConc.PC) (tr : List Nat)
    (s : GoraceConc.Sys)
    (hts : ∀ pc ∈ ts, GoraceConc.entryPC pc = true)
    (hrun : GoraceConc.run (GoraceConc.init ts) tr = some s) :
    s.crashed = false ∧
    ∀ (tid : Nat) (v : Iface),
      s.threads[tid]? = some (GoraceConc.PC.sendWrite v) →
        s.canceled = false ∧ s.closed = false := by
  have hInv := GoraceConc.inv_reachable hts hrun
  refine ⟨hInv.noCrash, ?_⟩
  intro tid v hpc
  obtain ⟨hc, -⟩ := hInv.writeOk tid v hpc
  exact ⟨hc, by rw [hInv.closedEq, hc]⟩

/-- Thread pool for the C2 witness: one sender racing one canceller. -/
def tsC2 : List GoraceConc.PC :=
  [GoraceConc.PC.sendL0 (Iface.boolVal true), GoraceConc.PC.cancelL0]

/-- Schedule for the C2 witness: the send completes, then the cancel. -/
def trC2 : List Nat := [0, 0, 0, 0, 1, 1, 1]

/-- Final state of the C2 witness execution. -/
def sC2 : GoraceConc.Sys :=
  (GoraceConc.run (GoraceConc.init tsC2) trC2).getD (GoraceConc.init tsC2)

/-- C2 witness: a concrete complete execution of a send racing a cancel
never crashes the runtime. -/
theorem C2_no_send_after_cancel_witness : sC2.crashed = false :=
  (C2_no_send_after_cancel tsC2 trC2 sC2 (by decide) (by decide)).1

/-- C3: `Cancel` is idempotent. On a not-yet-cancelled task it returns true,
sets `canceled`, closes the channel and bumps the close count by one; on a
cancelled task it returns false and performs no mutation at all. Along every
operation sequence from a fresh task the channel is closed iff
`canceled = true`, and it has then been closed exactly once. -/
theorem C3_cancel_idempotent :
    (∀ gc : Gorace.GoCancelable, gc.canceled = false →
      (Gorace.Cancel gc).2 = true ∧ (Gorace.Cancel gc).1.canceled = true ∧
      (Gorace.Cancel gc).1.sendClosed = true ∧
      (Gorace.Cancel gc).1.closeCount = gc.closeCount + 1) ∧
    (∀ gc : Gorace.GoCancelable, gc.canceled = true →
      Gorace.Cancel gc = (gc, false)) ∧
    (∀ ops : List Gorace.Op,
      (Gorace.runOps Gorace.GoRace ops).sendClosed
        = (Gorace.runOps Gorace.GoRace ops).canceled ∧
      (Gorace.runOps Gorace.GoRace ops).closeCount
        = (if (Gorace.runOps Gorace.GoRace ops).canceled then 1 else 0)) := by
  refine ⟨?_, ?_, ?_⟩
  · intro gc hc
    unfold Gorace.Cancel Gorace.cancel
    simp [hc]
  · intro gc hc
    unfold Gorace.Cancel Gorace.cancel
    simp [hc]
  · intro ops
    have h := Gorace.opInv_runOps Gorace.opInv_GoRace ops
    exact ⟨h.closedEq, h.closeOnce⟩

/-- C3 witness: on the fresh task the first `Cancel` returns true and the
second returns false without mutating the state. -/
theorem C3_cancel_idempotent_witness :
    (Gorace.Cancel Gorace.GoRace).2 = true ∧
    Gorace.Cancel (Gorace.Cancel Gorace.GoRace).1
      = ((Gorace.Cancel Gorace.GoRace).1, false) :=
  ⟨(C3_cancel_idempotent.1 Gorace.GoRace rfl).1,
   C3_cancel_idempotent.2.1 (Gorace.Cancel Gorace.GoRace).1 rfl⟩

/-- C4: `Send` on an already-cancelled task is a silent no-op: the state is
returned unchanged (so the value is dropped, `lastResult` and the channel
buffer are untouched), and the channel write is never reached, so the call
cannot block. -/
theorem C4_send_after_cancel_noop (gc : Gorace.GoCancelable) (v : Iface)
    (h : gc.canceled = true) :
    Gorace.Send gc v = gc ∧ Gorace.sendWouldBlock gc = false := by
  unfold Gorace.Send Gorace.sendWouldBlock
  simp [h]

/-- C4 witness: sending on the freshly cancelled task changes nothing. -/
theorem C4_send_after_cancel_noop_witness :
    Gorace.Send (Gorace.Cancel Gorace.GoRace).1 (Iface.boolVal true)
      = (Gorace.Cancel Gorace.GoRace).1 :=
  (C4_send_after_cancel_noop (Gorace.Cancel Gorace.GoRace).1
    (Iface.boolVal true) rfl).1

/-- C5: `started` transitions false to true at most once. Along every
operation sequence from a fresh task at most one handler goroutine is ever
launched, no matter how many `Start`/`StartBackground` operations the
sequence contains; a `Start` on a started (or cancelled) task is a no-op
returning the same task, and the first successful `Start` sets `started` and
launches exactly one handler. -/
theorem C5_start_at_most_once :
    (∀ ops : List Gorace.Op,
      (Gorace.runOps Gorace.GoRace ops).handlerRuns ≤ 1) ∧
    (∀ gc : Gorace.GoCancelable, gc.started = true ∨ gc.canceled = true →
      Gorace.Start gc = gc ∧ Gorace.StartBackground gc = gc) ∧
    (∀ gc : Gorace.GoCancelable, gc.canceled = false → gc.started = false →
      (Gorace.Start gc).started = true ∧
      (Gorace.Start gc).handlerRuns = gc.handlerRuns + 1) := by
  refine ⟨?_, ?_, ?_⟩
  · intro ops
    have h := (Gorace.opInv_runOps Gorace.opInv_GoRace ops).runsOnce
    rw [h]
    split <;> omega
  · intro gc hgc
    have hcond : (!gc.canceled && !gc.started) = false := by
      rcases hgc with hgc | hgc <;> simp [hgc]
    unfold Gorace.StartBackground Gorace.Start
    simp [hcond]
  · intro gc hc hs
    unfold Gorace.Start
    simp [hc, hs]

/-- C5 witness: a second `Start` on a started fresh task is the identity,
and the first `Start` set `started`. -/
theorem C5_start_at_most_once_witness :
    Gorace.Start (Gorace.Start Gorace.GoRace) = Gorace.Start Gorace.GoRace ∧
    (Gorace.Start Gorace.GoRace).started = true :=
  ⟨(C5_start_at_most_once.2.1 (Gorace.Start Gorace.GoRace) (Or.inl rfl)).1,
   (C5_start_at_most_once.2.2 Gorace.GoRace rfl rfl).1⟩

/-- C6: cancelling a fresh task before any `Start` makes the subsequent
`Start` a no-op: the handler is never launched, the channel `Receive`
returns is already closed, and `LastResult` returns the nil absence
sentinel. -/
theorem C6_cancel_before_start :
    Gorace.Start (Gorace.Cancel Gorace.GoRace).1
      = (Gorace.Cancel Gorace.GoRace).1 ∧
    (Gorace.Start (Gorace.Cancel Gorace.GoRace).1).handlerRuns = 0 ∧
    (Gorace.Receive (Gorace.Cancel Gorace.GoRace).1).2 = true ∧
    Gorace.LastResult (Gorace.Start (Gorace.Cancel Gorace.GoRace).1)
      = Iface.nil := by
  decide

/-- C7: inside `Send`, `lastResult = result` executes strictly before the
channel write: in every reachable state, a thread standing at the channel
write for value `v` already has `lastResult = v`; moreover every value in
the channel buffer is an accepted value and `lastResult` is the most
recently accepted one, so an observer of `LastResult` sees a value
consistent with or later than anything still readable from the channel. -/
theorem C7_lastResult_before_write (ts : List GoraceConc.PC) (tr : List Nat)
    (s : GoraceConc.Sys)
    (hts : ∀ pc ∈ ts, GoraceConc.entryPC pc = true)
    (hrun : GoraceConc.run (GoraceConc.init ts) tr = some s) :
    (∀ (tid : Nat) (v : Iface),
      s.threads[tid]? = some (GoraceConc.PC.sendWrite v) → s.lastResult = v) ∧
    (∀ w ∈ s.buf, w ∈ s.acceptedSends) ∧
    s.lastResult = s.acceptedSends.getLastD Iface.nil := by
  have hInv := GoraceConc.inv_reachable hts hrun
  refine ⟨?_, hInv.bufAccepted, hInv.lastAccepted⟩
  intro tid v hpc
  obtain ⟨-, hlast⟩ := hInv.writeOk tid v hpc
  rw [hInv.lastAccepted, List.getLastD_eq_getLast?, hlast]
  rfl

/-- Thread pool for the C7 witness: a single sender. -/
def tsC7 : List GoraceConc.PC := [GoraceConc.PC.sendL0 (Iface.intVal 7)]

/-- Schedule for the C7 witness: the sender acquires the lock and passes the
check, stopping at the channel write. -/
def trC7 : List Nat := [0, 0]

/-- State of the C7 witness execution: thread 0 stands at the channel
write. -/
def sC7 : GoraceConc.Sys :=
  (GoraceConc.run (GoraceConc.init tsC7) trC7).getD (GoraceConc.init tsC7)

/-- C7 witness: in the concrete execution the thread at the channel write
has already published its value in `lastResult`. -/
theorem C7_lastResult_before_write_witness : sC7.lastResult = Iface.intVal 7 :=
  (C7_lastResult_before_write tsC7 trC7 sC7 (by decide) (by decide)).1
    0 (Iface.intVal 7) (by decide)

/-- C8: `Cancel` never mutates `lastResult`: `LastResult` reads the same
value immediately before and after any `Cancel`; and once a task is
cancelled no operation whatsoever changes `lastResult`, so it retains its
last accepted value forever. -/
theorem C8_cancel_frames_lastResult :
    (∀ gc : Gorace.GoCancelable,
      Gorace.LastResult (Gorace.Cancel gc).1 = Gorace.LastResult gc) ∧
    (∀ (gc : Gorace.GoCancelable) (op : Gorace.Op), gc.canceled = true →
      (Gorace.applyOp gc op).lastResult = gc.lastResult) := by
  constructor
  · intro gc
    exact Gorace.cancel_lastResult gc
  · intro gc op hc
    cases op with
    | cancel =>
      show (Gorace.cancel gc).1.lastResult = gc.lastResult
      exact Gorace.cancel_lastResult gc
    | send v =>
      show (Gorace.Send gc v).lastResult = gc.lastResult
      unfold Gorace.Send
      simp [hc]
    | start =>
      show (Gorace.Start gc).lastResult = gc.lastResult
      unfold Gorace.Start
      simp [hc]
    | startBackground =>
      show (Gorace.Start gc).lastResult = gc.lastResult
      unfold Gorace.Start
      simp [hc]
    | isCanceled => rfl
    | lastResult => rfl
    | recv => rfl

/-- C8 witness: cancelling after a successful send leaves `LastResult`
unchanged, and a further send on the cancelled task does not change it
either. -/
theorem C8_cancel_frames_lastResult_witness :
    Gorace.LastResult
        (Gorace.Cancel (Gorace.Send Gorace.GoRace (Iface.intVal 3))).1
      = Gorace.LastResult (Gorace.Send Gorace.GoRace (Iface.intVal 3)) ∧
    (Gorace.applyOp (Gorace.Cancel Gorace.GoRace).1
        (Gorace.Op.send (Iface.intVal 9))).lastResult
      = (Gorace.Cancel Gorace.GoRace).1.lastResult :=
  ⟨C8_cancel_frames_lastResult.1 (Gorace.Send Gorace.GoRace (Iface.intVal 3)),
   C8_cancel_frames_lastResult.2 (Gorace.Cancel Gorace.GoRace).1
     (Gorace.Op.send (Iface.intVal 9)) rfl⟩

/-- C9: `Send` holds the task mutex across the potentially blocking channel
write. In any reachable state in which a thread stands at the channel write
with the single buffer slot full, that thread owns the mutex, it cannot step
(the write blocks), and every other operation whose first micro-step is
`gc.mu.Lock()` - `Cancel`, `IsCanceled`, `LastResult`, `Start`, and other
`Send`s - is disabled: with no consumer draining the slot, `Cancel` can
never proceed. -/
theorem C9_blocked_send_holds_lock (ts : List GoraceConc.PC) (tr : List Nat)
    (s : GoraceConc.Sys) (tid : Nat) (v : Iface)
    (hts : ∀ pc ∈ ts, GoraceConc.entryPC pc = true)
    (hrun : GoraceConc.run (GoraceConc.init ts) tr = some s)
    (hpc : s.threads[tid]? = some (GoraceConc.PC.sendWrite v))
    (hfull : chanCap ≤ s.buf.length) :
    s.lock = some tid ∧
    GoraceConc.exec s tid = none ∧
    (∀ (tid' : Nat) (pc' : GoraceConc.PC), s.threads[tid']? = some pc' →
      GoraceConc.entryLockPC pc' = true → GoraceConc.exec s tid' = none) := by
  have hInv := GoraceConc.inv_reachable hts hrun
  have hlock : s.lock = some tid := hInv.lockOwn tid _ hpc rfl
  obtain ⟨hc, -⟩ := hInv.writeOk tid v hpc
  have hclosed : s.closed = false := by rw [hInv.closedEq, hc]
  refine ⟨hlock, ?_, ?_⟩
  · unfold GoraceConc.exec
    rw [hpc]
    simp [GoraceConc.execPC, hclosed, Nat.not_lt.mpr hfull]
  · intro tid' pc' hpc' hentry
    unfold GoraceConc.exec
    rw [hpc']
    cases pc' <;> simp_all [GoraceConc.execPC, GoraceConc.entryLockPC]

/-- Thread pool for the C9 witness: two senders and a canceller. -/
def tsC9 : List GoraceConc.PC :=
  [GoraceConc.PC.sendL0 (Iface.intVal 1), GoraceConc.PC.sendL0 (Iface.intVal 2),
   GoraceConc.PC.cancelL0]

/-- Schedule for the C9 witness: the first send completes and fills the
slot; the second send acquires the mutex and passes the check, reaching the
channel write on a full slot. -/
def trC9 : List Nat := [0, 0, 0, 0, 1, 1]

/-- State of the C9 witness execution: thread 1 is blocked at the channel
write while holding the mutex. -/
def sC9 : GoraceConc.Sys :=
  (GoraceConc.run (GoraceConc.init tsC9) trC9).getD (GoraceConc.init tsC9)

/-- C9 witness: in the concrete blocked execution the blocked sender owns
the mutex and the pending `Cancel` thread cannot step. -/
theorem C9_blocked_send_holds_lock_witness :
    sC9.lock = some 1 ∧ GoraceConc.exec sC9 2 = none := by
  have h := C9_blocked_send_holds_lock tsC9 trC9 sC9 1 (Iface.intVal 2)
    (by decide) (by decide) (by decide) (by decide)
  exact ⟨h.1, h.2.2 2 GoraceConc.PC.cancelL0 (by decide) (by decide)⟩

/-- C10: the absence sentinel is the nil interface value: a fresh task's
`LastResult` is nil, a task on which no `Send` has ever been accepted still
reads nil, and a successful `Send` of nil leaves `LastResult` equal to the
fresh task's, so it is indistinguishable through `LastResult` from never
having sent. -/
theorem C10_nil_absence_sentinel :
    Gorace.LastResult Gorace.GoRace = Iface.nil ∧
    (∀ ops : List Gorace.Op,
      (Gorace.runOps Gorace.GoRace ops).acceptedSends = [] →
        Gorace.LastResult (Gorace.runOps Gorace.GoRace ops) = Iface.nil) ∧
    (∀ gc : Gorace.GoCancelable, gc.canceled = false →
      Gorace.LastResult (Gorace.Send gc Iface.nil)
        = Gorace.LastResult Gorace.GoRace) := by
  refine ⟨rfl, ?_, ?_⟩
  · intro ops hacc
    have h := (Gorace.opInv_runOps Gorace.opInv_GoRace ops).lastAccepted
    show (Gorace.runOps Gorace.GoRace ops).lastResult = Iface.nil
    rw [h, hacc]
    rfl
  · intro gc hc
    show (Gorace.Send gc Iface.nil).lastResult = Iface.nil
    unfold Gorace.Send
    simp [hc]

/-- C10 witness: sending nil on the fresh task leaves `LastResult` equal to
the fresh task's nil. -/
theorem C10_nil_absence_sentinel_witness :
    Gorace.LastResult (Gorace.Send Gorace.GoRace Iface.nil)
      = Gorace.LastResult Gorace.GoRace :=
  C10_nil_absence_sentinel.2.2 Gorace.GoRace rfl
